import Mathlib

/-!
Verification of the Advent-of-Code day-1 solver (`src/day1.rs`).

Lines are modelled as lists of bytes (`List Nat`).  Functions that can
panic in Rust (`slice[0]` on an empty slice, `slice.len() - 1` underflow)
return `Option` with `none` standing for the panic; a Rust `Option<u64>`
return value becomes the inner `Option Nat`.
-/

namespace Day1

/-- Embeds `byte_to_u64`: `Some(c - b'0')` when `c` is an ASCII digit. -/
def byte_to_u64 (c : Nat) : Option Nat :=
  if 48 ≤ c ∧ c ≤ 57 then some (c - 48) else none

/-- Embeds `first_digit`: scan left to right for the first ASCII digit. -/
def first_digit : List Nat → Option Nat
  | [] => none
  | c :: rest =>
    match byte_to_u64 c with
    | some d => some d
    | none => first_digit rest

/-- Embeds `last_digit`: the source runs the same loop body as
`first_digit` over `line.iter().rev()`. -/
def last_digit (line : List Nat) : Option Nat :=
  first_digit line.reverse

/-- Embeds `MAX_NAMED_DIGIT_LEN` (three, seven and eight). -/
def MAX_NAMED_DIGIT_LEN : Nat := 5

/-- Embeds `MIN_NAMED_DIGIT_LEN` (one, two and six). -/
def MIN_NAMED_DIGIT_LEN : Nat := 3

/-- Embeds the constant `ONE = [b'o', b'n', b'e']`. -/
def ONE : List Nat := [111, 110, 101]

/-- Embeds `TWO = [b't', b'w', b'o']`. -/
def TWO : List Nat := [116, 119, 111]

/-- Embeds `THREE = [b't', b'h', b'r', b'e', b'e']`. -/
def THREE : List Nat := [116, 104, 114, 101, 101]

/-- Embeds `FOUR = [b'f', b'o', b'u', b'r']`. -/
def FOUR : List Nat := [102, 111, 117, 114]

/-- Embeds `FIVE = [b'f', b'i', b'v', b'e']`. -/
def FIVE : List Nat := [102, 105, 118, 101]

/-- Embeds `SIX = [b's', b'i', b'x']`. -/
def SIX : List Nat := [115, 105, 120]

/-- Embeds `SEVEN = [b's', b'e', b'v', b'e', b'n']`. -/
def SEVEN : List Nat := [115, 101, 118, 101, 110]

/-- Embeds `EIGHT = [b'e', b'i', b'g', b'h', b't']`. -/
def EIGHT : List Nat := [101, 105, 103, 104, 116]

/-- Embeds `NINE = [b'n', b'i', b'n', b'e']`. -/
def NINE : List Nat := [110, 105, 110, 101]

/-- Embeds `ALL_DIGITS`, the ordered word-to-value table. -/
def ALL_DIGITS : List (List Nat × Nat) :=
  [(ONE, 1), (TWO, 2), (THREE, 3), (FOUR, 4), (FIVE, 5),
   (SIX, 6), (SEVEN, 7), (EIGHT, 8), (NINE, 9)]

/-- Embeds the `for (needle, value) in ALL_DIGITS` loop of
`slice_to_first_u64`: return the first table entry whose word starts the
slice (`slice.starts_with(needle)`). -/
def find_starting (slice : List Nat) : List (List Nat × Nat) → Option Nat
  | [] => none
  | (needle, value) :: rest =>
    if needle <+: slice then some value else find_starting slice rest

/-- Embeds the `for (needle, value) in ALL_DIGITS` loop of
`slice_to_last_u64`: return the first table entry whose word ends the
slice (`slice.ends_with(needle)`). -/
def find_ending (slice : List Nat) : List (List Nat × Nat) → Option Nat
  | [] => none
  | (needle, value) :: rest =>
    if needle <:+ slice then some value else find_ending slice rest

/-- Embeds `slice_to_first_u64`.  The unguarded `slice[0]` panics on an
empty slice; the outer `none` models that panic. -/
def slice_to_first_u64 : List Nat → Option (Option Nat)
  | [] => none
  | c :: rest =>
    some (match byte_to_u64 c with
      | some d => some d
      | none => find_starting (c :: rest) ALL_DIGITS)

/-- Embeds `slice_to_last_u64`.  `slice.len() - 1` underflows and
`slice[last]` panics on an empty slice; the outer `none` models that. -/
def slice_to_last_u64 : List Nat → Option (Option Nat)
  | [] => none
  | c :: rest =>
    some (match byte_to_u64 ((c :: rest).getLastD 0) with
      | some d => some d
      | none => find_ending (c :: rest) ALL_DIGITS)

/-- Embeds the Rust slice expression `&line[a..b]`. -/
def subslice (line : List Nat) (a b : Nat) : List Nat :=
  (line.drop a).take (b - a)

/-- Embeds the `for i in 0..=len - MIN_NAMED_DIGIT_LEN` loop of
`first_named_digit`, over the list of loop indices: each round slices
`&line[i..min(i + MAX_NAMED_DIGIT_LEN, len)]`, returns on the first
`Some`, and propagates a panic (`none`). -/
def first_named_scan (line : List Nat) : List Nat → Option (Option Nat)
  | [] => some none
  | i :: rest =>
    match slice_to_first_u64 (subslice line i (min (i + MAX_NAMED_DIGIT_LEN) line.length)) with
    | none => none
    | some (some d) => some (some d)
    | some none => first_named_scan line rest

/-- Embeds `first_named_digit`.  The three `match len.cmp(&MIN)` arms
become an `if` chain; the value of the arm (early return when `Some`)
is merged with the trailing `first_digit(line)` fallback exactly as the
source falls through. -/
def first_named_digit (line : List Nat) : Option (Option Nat) :=
  let len := line.length
  let scanned : Option (Option Nat) :=
    if len < MIN_NAMED_DIGIT_LEN then
      some (first_digit line)
    else if len = MIN_NAMED_DIGIT_LEN then
      slice_to_first_u64 line
    else
      first_named_scan line (List.range (len - MIN_NAMED_DIGIT_LEN + 1))
  match scanned with
  | none => none
  | some (some d) => some (some d)
  | some none => some (first_digit line)

/-- Embeds the `for i in (MIN_NAMED_DIGIT_LEN..=len).rev()` loop of
`last_named_digit`: each round slices `&line[i - min(i, MAX)..i]`. -/
def last_named_scan (line : List Nat) : List Nat → Option (Option Nat)
  | [] => some none
  | i :: rest =>
    match slice_to_last_u64 (subslice line (i - min i MAX_NAMED_DIGIT_LEN) i) with
    | none => none
    | some (some d) => some (some d)
    | some none => last_named_scan line rest

/-- Embeds `last_named_digit`, mirroring `first_named_digit` with the
descending loop and the trailing `last_digit(line)` fallback. -/
def last_named_digit (line : List Nat) : Option (Option Nat) :=
  let len := line.length
  let scanned : Option (Option Nat) :=
    if len < MIN_NAMED_DIGIT_LEN then
      some (last_digit line)
    else if len = MIN_NAMED_DIGIT_LEN then
      slice_to_last_u64 line
    else
      last_named_scan line (List.range' MIN_NAMED_DIGIT_LEN (len - MIN_NAMED_DIGIT_LEN + 1)).reverse
  match scanned with
  | none => none
  | some (some d) => some (some d)
  | some none => some (last_digit line)

/-- Embeds the per-line closure of `day1_step1`:
`first_digit(line).unwrap_or_default() * 10 + last_digit(line).unwrap_or_default()`. -/
def line_value1 (line : List Nat) : Nat :=
  (first_digit line).getD 0 * 10 + (last_digit line).getD 0

/-- Embeds the per-line closure of `day1_step2`; `none` propagates a
panic of either named scanner. -/
def line_value2 (line : List Nat) : Option Nat :=
  match first_named_digit line, last_named_digit line with
  | some f, some l => some (f.getD 0 * 10 + l.getD 0)
  | _, _ => none

/-- Splits a byte string at every newline byte (10); `n + 1` pieces for
`n` newlines, as `str::split('\n')` does. -/
def split_newline : List Nat → List (List Nat)
  | [] => [[]]
  | c :: rest =>
    if c = 10 then [] :: split_newline rest
    else
      match split_newline rest with
      | [] => [[c]]
      | l :: ls => (c :: l) :: ls

/-- Drops a trailing carriage-return byte (13), as `str::lines` does per
line. -/
def strip_cr (l : List Nat) : List Nat :=
  if l.getLast? = some 13 then l.dropLast else l

/-- Embeds `str::lines()`: split at newlines, drop the final empty piece
produced by a trailing newline, strip a trailing `\r` from each line. -/
def rust_lines (s : List Nat) : List (List Nat) :=
  let parts := split_newline s
  let kept := if parts.getLast? = some [] then parts.dropLast else parts
  kept.map strip_cr

/-- Embeds `day1_step1`; the file read is abstracted as an already
delivered `Except` value, whose error is propagated unchanged by `?`. -/
def day1_step1 {ε : Type} (readResult : Except ε (List Nat)) : Except ε Nat :=
  match readResult with
  | Except.error e => Except.error e
  | Except.ok input => Except.ok (((rust_lines input).map line_value1).sum)

/-- Embeds `day1_step2`; the outer `Option` is `none` if any line's
processing panics. -/
def day1_step2 {ε : Type} (readResult : Except ε (List Nat)) : Option (Except ε Nat) :=
  match readResult with
  | Except.error e => some (Except.error e)
  | Except.ok input =>
    match (rust_lines input).mapM line_value2 with
    | some values => some (Except.ok values.sum)
    | none => none

/-- The bytes of a string literal, for concrete test lines. -/
def str_bytes (s : String) : List Nat := s.data.map Char.toNat

/-! ### A positional reading of the named scanners

`named_first_spec` walks positions left to right; at each position it
tests the literal digit, then a word start; `named_last_aux line n`
walks end positions `n, n-1, ..., 1`, testing the literal digit just
before the end position, then a word ending there.  Both are proved
equal (modulo the panic layer) to the sliding-window implementations. -/

/-- Positionwise reading of the forward named scan. -/
def named_first_spec : List Nat → Option Nat
  | [] => none
  | c :: rest =>
    match byte_to_u64 c with
    | some d => some d
    | none =>
      match find_starting (c :: rest) ALL_DIGITS with
      | some v => some v
      | none => named_first_spec rest

/-- Positionwise reading of the backward named scan, by end position. -/
def named_last_aux (line : List Nat) : Nat → Option Nat
  | 0 => none
  | n + 1 =>
    match byte_to_u64 (line.getD n 0) with
    | some d => some d
    | none =>
      match find_ending (line.take (n + 1)) ALL_DIGITS with
      | some v => some v
      | none => named_last_aux line n

/-- Positionwise reading of the whole backward named scan. -/
def named_last_spec (line : List Nat) : Option Nat :=
  named_last_aux line line.length

/-- What one window test of the forward scan computes, positionally. -/
def pos_first (line : List Nat) (i : Nat) : Option Nat :=
  match byte_to_u64 (line.getD i 0) with
  | some d => some d
  | none => find_starting (line.drop i) ALL_DIGITS

/-- What one window test of the backward scan computes, positionally. -/
def pos_last (line : List Nat) (i : Nat) : Option Nat :=
  match byte_to_u64 (line.getD (i - 1) 0) with
  | some d => some d
  | none => find_ending (line.take i) ALL_DIGITS

/-- Merges a scan result with the fallback value used when it found
nothing; the panic outcome is irrelevant to the merged value. -/
def merge1 : Option (Option Nat) → Option Nat → Option Nat
  | some (some d), _ => some d
  | _, fb => fb


-- sanity checks (scratch)
example : first_digit (str_bytes "abc4e6gh9jkl") = some 4 := by decide
example : last_digit (str_bytes "abc4e6gh9j11l") = some 1 := by decide
example : first_named_digit (str_bytes "twone") = some (some 2) := by decide
example : last_named_digit (str_bytes "twone") = some (some 1) := by decide
example : first_named_digit (str_bytes "abc4esixghninejkl") = some (some 4) := by decide
example : first_named_digit (str_bytes "abcde") = some none := by decide
example : last_named_digit (str_bytes "abc4e6ghninejelevenl") = some (some 9) := by decide
example : last_named_digit (str_bytes "7pqrstsixteen") = some (some 6) := by decide
example : line_value2 (str_bytes "zoneight234") = some 14 := by decide
example :
    day1_step2 (ε := Nat) (Except.ok (str_bytes "two1nine\neightwothree\nabcone2threexyz\nxtwone3four\n4nineeightseven2\nzoneight234\n7pqrstsixteen")) =
      some (Except.ok 281) := by rfl
example :
    day1_step1 (ε := Nat) (Except.ok (str_bytes "1abc2\npqr3stu8vwx\na1b2c3d4e5f\ntreb7uchet")) =
      Except.ok 142 := by rfl
example : first_named_digit (str_bytes "81s") = some (some 8) := by decide
example : last_named_digit (str_bytes "81s") = some (some 1) := by decide
example : first_named_digit (str_bytes "xiv") = some none := by decide
example : first_named_digit (str_bytes "fjbbtgone5") = some (some 1) := by decide

/-! ### Basic facts about bytes and the literal scanners -/

theorem byte_to_u64_le_nine {c d : Nat} (h : byte_to_u64 c = some d) : d ≤ 9 := by
  unfold byte_to_u64 at h
  split at h
  · cases h
    omega
  · cases h

theorem first_digit_eq_none_iff {l : List Nat} :
    first_digit l = none ↔ ∀ c ∈ l, byte_to_u64 c = none := by
  induction l with
  | nil => simp [first_digit]
  | cons c rest ih =>
    unfold first_digit
    cases hb : byte_to_u64 c with
    | some d => simp [hb]
    | none => simpa [hb] using ih

theorem first_digit_le_nine {l : List Nat} {d : Nat} (h : first_digit l = some d) : d ≤ 9 := by
  induction l with
  | nil => cases h
  | cons c rest ih =>
    unfold first_digit at h
    cases hb : byte_to_u64 c with
    | some e =>
      rw [hb] at h
      cases h
      exact byte_to_u64_le_nine hb
    | none =>
      rw [hb] at h
      exact ih h

theorem last_digit_le_nine {l : List Nat} {d : Nat} (h : last_digit l = some d) : d ≤ 9 :=
  first_digit_le_nine h

theorem last_digit_eq_none_iff {l : List Nat} :
    last_digit l = none ↔ ∀ c ∈ l, byte_to_u64 c = none := by
  unfold last_digit
  rw [first_digit_eq_none_iff]
  constructor
  · intro h c hc
    exact h c (List.mem_reverse.mpr hc)
  · intro h c hc
    exact h c (List.mem_reverse.mp hc)

theorem last_digit_concat_digit {l : List Nat} {c d : Nat} (h : byte_to_u64 c = some d) :
    last_digit (l ++ [c]) = some d := by
  unfold last_digit
  rw [List.reverse_append]
  simp [first_digit, h]

theorem last_digit_concat_nondigit {l : List Nat} {c : Nat} (h : byte_to_u64 c = none) :
    last_digit (l ++ [c]) = last_digit l := by
  unfold last_digit
  rw [List.reverse_append]
  simp [first_digit, h]

/-! ### Prefix, suffix and contiguous-sublist helpers -/

theorem len_le_of_pre {w l : List Nat} (h : w <+: l) : w.length ≤ l.length := by
  obtain ⟨t, rfl⟩ := h
  simp

theorem len_le_of_suf {w l : List Nat} (h : w <:+ l) : w.length ≤ l.length := by
  obtain ⟨t, rfl⟩ := h
  simp

theorem pre_take {w l : List Nat} {k : Nat} (h : w <+: l) (hk : w.length ≤ k) :
    w <+: l.take k := by
  obtain ⟨t, rfl⟩ := h
  refine ⟨t.take (k - w.length), ?_⟩
  rw [List.take_append_eq_append_take, List.take_of_length_le hk]

theorem pre_of_take {w l : List Nat} {k : Nat} (h : w <+: l.take k) : w <+: l := by
  obtain ⟨t, ht⟩ := h
  exact ⟨t ++ l.drop k, by rw [← List.append_assoc, ht, List.take_append_drop]⟩

theorem suf_drop {w l : List Nat} {s : Nat} (h : w <:+ l) (hs : s + w.length ≤ l.length) :
    w <:+ l.drop s := by
  obtain ⟨t, rfl⟩ := h
  have hst : s ≤ t.length := by
    have := List.length_append t w
    omega
  refine ⟨t.drop s, ?_⟩
  rw [List.drop_append_eq_append_drop, Nat.sub_eq_zero_of_le hst, List.drop_zero]

theorem suf_of_drop {w l : List Nat} {s : Nat} (h : w <:+ l.drop s) : w <:+ l := by
  obtain ⟨t, ht⟩ := h
  exact ⟨l.take s ++ t, by rw [List.append_assoc, ht, List.take_append_drop]⟩

theorem inf_of_pre {w l : List Nat} (h : w <+: l) : w <:+: l := by
  obtain ⟨t, ht⟩ := h
  exact ⟨[], t, by simpa using ht⟩

theorem inf_of_suf {w l : List Nat} (h : w <:+ l) : w <:+: l := by
  obtain ⟨t, ht⟩ := h
  exact ⟨t, [], by simpa using ht⟩

theorem inf_of_suf_take {w l : List Nat} {n : Nat} (h : w <:+ l.take n) : w <:+: l := by
  obtain ⟨t, ht⟩ := h
  exact ⟨t, l.drop n, by rw [ht, List.take_append_drop]⟩

theorem inf_cons_of {w l : List Nat} {c : Nat} (h : w <:+: l) : w <:+: c :: l := by
  obtain ⟨s, t, rfl⟩ := h
  exact ⟨c :: s, t, rfl⟩

theorem inf_of_inf_concat {w l : List Nat} {c : Nat} (h : w <:+: l) : w <:+: l ++ [c] := by
  obtain ⟨s, t, rfl⟩ := h
  exact ⟨s, t ++ [c], by simp⟩

theorem inf_concat_iff {w l : List Nat} {c : Nat} :
    w <:+: l ++ [c] ↔ w <:+ l ++ [c] ∨ w <:+: l := by
  constructor
  · rintro ⟨s, t, ht⟩
    rcases List.eq_nil_or_concat t with rfl | ⟨t', a, rfl⟩
    · left
      exact ⟨s, by simpa using ht⟩
    · right
      have ht' : (s ++ w ++ t') ++ [a] = l ++ [c] := by
        rw [← ht, List.concat_eq_append]
        simp
      have hl : s ++ w ++ t' = l := by
        have := congrArg List.dropLast ht'
        simpa [List.dropLast_concat] using this
      exact ⟨s, t', hl⟩
  · rintro (h | h)
    · exact inf_of_suf h
    · exact inf_of_inf_concat h

/-! ### The word-table loops -/

theorem all_digits_len_ge : ∀ p ∈ ALL_DIGITS, 3 ≤ p.1.length := by decide

theorem all_digits_len_le : ∀ p ∈ ALL_DIGITS, p.1.length ≤ 5 := by decide

theorem all_digits_val_le : ∀ p ∈ ALL_DIGITS, p.2 ≤ 9 := by decide

theorem find_starting_eq_none_iff {s : List Nat} {t : List (List Nat × Nat)} :
    find_starting s t = none ↔ ∀ p ∈ t, ¬ p.1 <+: s := by
  induction t with
  | nil => simp [find_starting]
  | cons p rest ih =>
    obtain ⟨needle, value⟩ := p
    unfold find_starting
    by_cases h : needle <+: s
    · simp [h]
    · simpa [h] using ih

theorem find_starting_isSome_iff {s : List Nat} {t : List (List Nat × Nat)} :
    (find_starting s t).isSome = true ↔ ∃ p ∈ t, p.1 <+: s := by
  induction t with
  | nil => simp [find_starting]
  | cons p rest ih =>
    obtain ⟨needle, value⟩ := p
    unfold find_starting
    by_cases h : needle <+: s
    · simp [h]
    · simpa [h] using ih

theorem find_starting_mem {s : List Nat} {t : List (List Nat × Nat)} {v : Nat}
    (h : find_starting s t = some v) : ∃ p ∈ t, p.2 = v ∧ p.1 <+: s := by
  induction t with
  | nil => cases h
  | cons p rest ih =>
    obtain ⟨needle, value⟩ := p
    unfold find_starting at h
    by_cases hp : needle <+: s
    · rw [if_pos hp] at h
      cases h
      exact ⟨(needle, v), by simp, rfl, hp⟩
    · rw [if_neg hp] at h
      obtain ⟨q, hq, hv, hqp⟩ := ih h
      exact ⟨q, by simp [hq], hv, hqp⟩

theorem find_starting_take {l : List Nat} {k : Nat} {t : List (List Nat × Nat)}
    (hk : ∀ p ∈ t, p.1.length ≤ k) :
    find_starting (l.take k) t = find_starting l t := by
  induction t with
  | nil => rfl
  | cons p rest ih =>
    obtain ⟨needle, value⟩ := p
    unfold find_starting
    have hlen : needle.length ≤ k := hk (needle, value) (by simp)
    by_cases h : needle <+: l
    · rw [if_pos (pre_take h hlen), if_pos h]
    · rw [if_neg (fun hc => h (pre_of_take hc)), if_neg h]
      exact ih (fun p hp => hk p (by simp [hp]))

theorem find_ending_eq_none_iff {s : List Nat} {t : List (List Nat × Nat)} :
    find_ending s t = none ↔ ∀ p ∈ t, ¬ p.1 <:+ s := by
  induction t with
  | nil => simp [find_ending]
  | cons p rest ih =>
    obtain ⟨needle, value⟩ := p
    unfold find_ending
    by_cases h : needle <:+ s
    · simp [h]
    · simpa [h] using ih

theorem find_ending_isSome_iff {s : List Nat} {t : List (List Nat × Nat)} :
    (find_ending s t).isSome = true ↔ ∃ p ∈ t, p.1 <:+ s := by
  induction t with
  | nil => simp [find_ending]
  | cons p rest ih =>
    obtain ⟨needle, value⟩ := p
    unfold find_ending
    by_cases h : needle <:+ s
    · simp [h]
    · simpa [h] using ih

theorem find_ending_mem {s : List Nat} {t : List (List Nat × Nat)} {v : Nat}
    (h : find_ending s t = some v) : ∃ p ∈ t, p.2 = v ∧ p.1 <:+ s := by
  induction t with
  | nil => cases h
  | cons p rest ih =>
    obtain ⟨needle, value⟩ := p
    unfold find_ending at h
    by_cases hp : needle <:+ s
    · rw [if_pos hp] at h
      cases h
      exact ⟨(needle, v), by simp, rfl, hp⟩
    · rw [if_neg hp] at h
      obtain ⟨q, hq, hv, hqp⟩ := ih h
      exact ⟨q, by simp [hq], hv, hqp⟩

theorem find_ending_drop {l : List Nat} {s : Nat} {t : List (List Nat × Nat)}
    (hk : ∀ p ∈ t, s + p.1.length ≤ l.length) :
    find_ending (l.drop s) t = find_ending l t := by
  induction t with
  | nil => rfl
  | cons p rest ih =>
    obtain ⟨needle, value⟩ := p
    unfold find_ending
    have hlen : s + needle.length ≤ l.length := hk (needle, value) (by simp)
    by_cases h : needle <:+ l
    · rw [if_pos (suf_drop h hlen), if_pos h]
    · rw [if_neg (fun hc => h (suf_of_drop hc)), if_neg h]
      exact ih (fun p hp => hk p (by simp [hp]))

theorem stf_take {dl : List Nat} {k : Nat} (hk : 5 ≤ k) :
    slice_to_first_u64 (dl.take k) = slice_to_first_u64 dl := by
  cases dl with
  | nil => simp
  | cons c rest =>
    obtain ⟨k', rfl⟩ : ∃ k', k = k' + 1 := ⟨k - 1, by omega⟩
    rw [List.take_succ_cons]
    unfold slice_to_first_u64
    cases hb : byte_to_u64 c with
    | some d => simp [hb]
    | none =>
      simp only [hb]
      have ht : c :: rest.take k' = (c :: rest).take (k' + 1) := (List.take_succ_cons).symm
      rw [ht, find_starting_take (fun p hp => le_trans (all_digits_len_le p hp) (by omega))]

theorem drop_eq_getD_cons {l : List Nat} {i : Nat} (h : i < l.length) :
    l.drop i = l.getD i 0 :: l.drop (i + 1) := by
  rw [List.drop_eq_getElem_cons h]
  congr 1
  rw [List.getD_eq_getElem?_getD, List.getElem?_eq_getElem h]
  rfl

theorem stf_drop {l : List Nat} {i : Nat} (h : i < l.length) :
    slice_to_first_u64 (l.drop i) = some (pos_first l i) := by
  unfold pos_first
  rw [drop_eq_getD_cons h]
  simp only [List.getD_eq_getElem?_getD]
  cases hb : byte_to_u64 (l[i]?.getD 0) <;> simp [slice_to_first_u64, hb]

theorem window_first {l : List Nat} {i : Nat} (h : i + 3 ≤ l.length) :
    slice_to_first_u64 (subslice l i (min (i + MAX_NAMED_DIGIT_LEN) l.length)) =
      some (pos_first l i) := by
  unfold subslice MAX_NAMED_DIGIT_LEN
  rcases le_or_lt l.length (i + 5) with hle | hlt
  · rw [min_eq_right hle]
    have hw : l.length - i = (l.drop i).length := (List.length_drop i l).symm
    rw [hw, List.take_length]
    exact stf_drop (by omega)
  · rw [min_eq_left (by omega)]
    have hw : i + 5 - i = 5 := by omega
    rw [hw, stf_take (le_refl 5)]
    exact stf_drop (by omega)

theorem stl_nonempty {c : Nat} {rest : List Nat} :
    slice_to_last_u64 (c :: rest) =
      some (match byte_to_u64 ((c :: rest).getLastD 0) with
        | some d => some d
        | none => find_ending (c :: rest) ALL_DIGITS) := rfl

theorem getLast?_drop {X : List Nat} {s : Nat} (h : s < X.length) :
    (X.drop s).getLast? = X.getLast? := by
  rw [List.getLast?_eq_getElem?, List.getLast?_eq_getElem?, List.length_drop,
    List.getElem?_drop]
  congr 1
  omega

theorem stl_drop {X : List Nat} {s : Nat} (hs : s + 5 ≤ X.length) :
    slice_to_last_u64 (X.drop s) = slice_to_last_u64 X := by
  have hX : X ≠ [] := by
    intro h
    rw [h] at hs
    simp at hs
  have hXd : X.drop s ≠ [] := by
    intro h
    have := congrArg List.length h
    rw [List.length_drop] at this
    simp at this
    omega
  obtain ⟨c, rest, rfl⟩ := List.exists_cons_of_ne_nil hX
  obtain ⟨c', rest', hd⟩ := List.exists_cons_of_ne_nil hXd
  rw [hd, stl_nonempty, stl_nonempty, ← hd]
  rw [List.getLastD_eq_getLast?, List.getLastD_eq_getLast?, getLast?_drop (by omega),
    find_ending_drop (fun p hp => by have := all_digits_len_le p hp; omega)]

theorem stl_take {l : List Nat} {i : Nat} (h0 : 0 < i) (hi : i ≤ l.length) :
    slice_to_last_u64 (l.take i) = some (pos_last l i) := by
  have hne : l.take i ≠ [] := by
    have hlen : (l.take i).length = i := by
      rw [List.length_take]
      omega
    intro h
    rw [h] at hlen
    simp at hlen
    omega
  obtain ⟨c, rest, hd⟩ := List.exists_cons_of_ne_nil hne
  have hlast : (l.take i).getLastD 0 = l.getD (i - 1) 0 := by
    rw [List.getLastD_eq_getLast?, List.getLast?_eq_getElem?, List.length_take,
      min_eq_left hi, List.getElem?_take_of_lt (by omega), List.getD_eq_getElem?_getD]
  rw [hd, stl_nonempty, ← hd]
  unfold pos_last
  rw [hlast]

theorem window_last {l : List Nat} {i : Nat} (h3 : 3 ≤ i) (hi : i ≤ l.length) :
    slice_to_last_u64 (subslice l (i - min i MAX_NAMED_DIGIT_LEN) i) =
      some (pos_last l i) := by
  unfold subslice MAX_NAMED_DIGIT_LEN
  rcases le_or_lt i 5 with hle | hlt
  · rw [min_eq_left hle, Nat.sub_self, List.drop_zero, Nat.sub_zero]
    exact stl_take (by omega) hi
  · rw [min_eq_right (by omega)]
    have hw : (l.drop (i - 5)).take (i - (i - 5)) = (l.take i).drop (i - 5) := by
      rw [List.drop_take]
    rw [hw, stl_drop (by rw [List.length_take]; omega)]
    exact stl_take (by omega) hi

/-! ### Relating the sliding-window scans to the positional reading -/

theorem first_digit_cons {c : Nat} {rest : List Nat} :
    first_digit (c :: rest) =
      match byte_to_u64 c with
      | some d => some d
      | none => first_digit rest := rfl

theorem named_first_spec_cons {c : Nat} {rest : List Nat} :
    named_first_spec (c :: rest) =
      match byte_to_u64 c with
      | some d => some d
      | none =>
        match find_starting (c :: rest) ALL_DIGITS with
        | some v => some v
        | none => named_first_spec rest := rfl

theorem named_first_spec_short {l : List Nat} (h : l.length < 3) :
    named_first_spec l = first_digit l := by
  induction l with
  | nil => rfl
  | cons c rest ih =>
    unfold named_first_spec first_digit
    cases hb : byte_to_u64 c with
    | some d => simp [hb]
    | none =>
      have hfs : find_starting (c :: rest) ALL_DIGITS = none := by
        rw [find_starting_eq_none_iff]
        intro p hp hpre
        have h1 := len_le_of_pre hpre
        have h2 := all_digits_len_ge p hp
        rw [List.length_cons] at h1
        rw [List.length_cons] at h
        omega
      rw [List.length_cons] at h
      simp only [hb, hfs]
      exact ih (by omega)

theorem named_last_aux_short {l : List Nat} :
    ∀ n, n ≤ 2 → n ≤ l.length → named_last_aux l n = last_digit (l.take n)
  | 0, _, _ => by
    simp [named_last_aux, last_digit, first_digit]
  | n + 1, h2, hl => by
    have hn : n < l.length := by omega
    have htake : l.take (n + 1) = l.take n ++ [l.getD n 0] := by
      rw [List.take_succ, List.getElem?_eq_getElem hn, List.getD_eq_getElem?_getD,
        List.getElem?_eq_getElem hn]
      rfl
    have hfe : find_ending (l.take (n + 1)) ALL_DIGITS = none := by
      rw [find_ending_eq_none_iff]
      intro p hp hsuf
      have h1 := len_le_of_suf hsuf
      have h2' := all_digits_len_ge p hp
      rw [List.length_take] at h1
      omega
    unfold named_last_aux
    cases hb : byte_to_u64 (l.getD n 0) with
    | some d =>
      rw [htake, last_digit_concat_digit hb]
    | none =>
      simp only [hb, hfe]
      rw [htake, last_digit_concat_nondigit hb]
      exact named_last_aux_short n (by omega) (by omega)

theorem scan_first_total {l : List Nat} :
    ∀ is : List Nat, (∀ i ∈ is, i + 3 ≤ l.length) → first_named_scan l is ≠ none
  | [], _ => by simp [first_named_scan]
  | i :: rest, h => by
    unfold first_named_scan
    rw [window_first (h i (by simp))]
    cases hp : pos_first l i with
    | some d => simp
    | none =>
      show first_named_scan l rest ≠ none
      exact scan_first_total rest (fun j hj => h j (by simp [hj]))

theorem scan_last_total {l : List Nat} :
    ∀ is : List Nat, (∀ i ∈ is, 3 ≤ i ∧ i ≤ l.length) → last_named_scan l is ≠ none
  | [], _ => by simp [last_named_scan]
  | i :: rest, h => by
    unfold last_named_scan
    rw [window_last (h i (by simp)).1 (h i (by simp)).2]
    cases hp : pos_last l i with
    | some d => simp
    | none =>
      show last_named_scan l rest ≠ none
      exact scan_last_total rest (fun j hj => h j (by simp [hj]))

theorem scan_first_spec {l : List Nat} :
    ∀ (k a : Nat), a + k + 2 = l.length →
      named_first_spec (l.drop a) =
        merge1 (first_named_scan l (List.range' a k)) (first_digit (l.drop a))
  | 0, a, h => by
    rw [List.range'_zero]
    show named_first_spec (l.drop a) = first_digit (l.drop a)
    exact named_first_spec_short (by rw [List.length_drop]; omega)
  | k + 1, a, h => by
    have ha : a < l.length := by omega
    have hd := drop_eq_getD_cons ha
    rw [List.range'_succ]
    unfold first_named_scan
    rw [window_first (by omega)]
    unfold pos_first
    cases hb : byte_to_u64 (l.getD a 0) with
    | some d =>
      rw [hd, named_first_spec_cons, hb]
      rfl
    | none =>
      cases hf : find_starting (l.drop a) ALL_DIGITS with
      | some v =>
        rw [hd, named_first_spec_cons, hb, ← hd, hf]
        rfl
      | none =>
        have hspec : named_first_spec (l.drop a) = named_first_spec (l.drop (a + 1)) := by
          rw [hd, named_first_spec_cons, hb, ← hd, hf]
        have hfb : first_digit (l.drop a) = first_digit (l.drop (a + 1)) := by
          rw [hd, first_digit_cons, hb]
        rw [hspec, hfb, scan_first_spec k (a + 1) (by omega)]

theorem scan_last_spec {l : List Nat} :
    ∀ k : Nat, k + 2 ≤ l.length →
      named_last_aux l (k + 2) =
        merge1 (last_named_scan l (List.range' 3 k).reverse) (last_digit (l.take (k + 2)))
  | 0, h => by
    rw [List.range'_zero, List.reverse_nil]
    show named_last_aux l 2 = last_digit (l.take 2)
    exact named_last_aux_short 2 (by omega) h
  | k + 1, h => by
    have hrev : (List.range' 3 (k + 1)).reverse = (k + 3) :: (List.range' 3 k).reverse := by
      rw [List.range'_concat, List.reverse_append]
      simp
      omega
    have hn : k + 2 < l.length := by omega
    have htake : l.take (k + 3) = l.take (k + 2) ++ [l.getD (k + 2) 0] := by
      rw [List.take_succ, List.getElem?_eq_getElem hn, List.getD_eq_getElem?_getD,
        List.getElem?_eq_getElem hn]
      rfl
    rw [hrev]
    unfold last_named_scan
    rw [window_last (by omega) (by omega)]
    unfold pos_last
    have hidx : k + 3 - 1 = k + 2 := by omega
    rw [hidx]
    show named_last_aux l (k + 2 + 1) = _
    unfold named_last_aux
    cases hb : byte_to_u64 (l.getD (k + 2) 0) with
    | some d => simp [hb, merge1]
    | none =>
      cases hf : find_ending (l.take (k + 3)) ALL_DIGITS with
      | some v => simp [hb, hf, merge1]
      | none =>
        simp only [hb, hf]
        have hfb : last_digit (l.take (k + 3)) = last_digit (l.take (k + 2)) := by
          rw [htake, last_digit_concat_nondigit hb]
        rw [hfb]
        exact scan_last_spec k (by omega)

/-- The forward implementation never panics and returns exactly the
positional reading. -/
theorem first_named_digit_eq_spec (l : List Nat) :
    first_named_digit l = some (named_first_spec l) := by
  unfold first_named_digit MIN_NAMED_DIGIT_LEN
  by_cases h1 : l.length < 3
  · simp only [if_pos h1]
    cases hf : first_digit l <;> simp [named_first_spec_short h1, hf]
  · by_cases h2 : l.length = 3
    · have hsp := scan_first_spec (l := l) 1 0 (by omega)
      rw [List.drop_zero] at hsp
      have hs : slice_to_first_u64 l = some (pos_first l 0) := by
        have := stf_drop (l := l) (i := 0) (by omega)
        rwa [List.drop_zero] at this
      have hscan : first_named_scan l (List.range' 0 1) =
          match pos_first l 0 with
          | some d => some (some d)
          | none => some none := by
        show first_named_scan l (0 :: []) = _
        unfold first_named_scan
        rw [window_first (by omega)]
        cases pos_first l 0 <;> rfl
      rw [hscan] at hsp
      simp only [if_neg h1, if_pos h2]
      rw [hs]
      cases hp : pos_first l 0 with
      | some d =>
        rw [hp] at hsp
        simp only [merge1] at hsp
        rw [hsp]
      | none =>
        rw [hp] at hsp
        simp only [merge1] at hsp
        rw [hsp]
    · have hlen : l.length - 3 + 1 = l.length - 2 := by omega
      simp only [if_neg h1, if_neg h2]
      rw [hlen, List.range_eq_range']
      have hsp := scan_first_spec (l := l) (l.length - 2) 0 (by omega)
      rw [List.drop_zero] at hsp
      have htot := scan_first_total (l := l) (List.range' 0 (l.length - 2))
        (fun i hi => by rw [List.mem_range'_1] at hi; omega)
      cases hscan : first_named_scan l (List.range' 0 (l.length - 2)) with
      | none => exact absurd hscan htot
      | some r =>
        rw [hscan] at hsp
        cases r with
        | some d =>
          simp only [merge1] at hsp
          rw [hsp]
        | none =>
          simp only [merge1] at hsp
          rw [hsp]

/-- The backward implementation never panics and returns exactly the
positional reading. -/
theorem last_named_digit_eq_spec (l : List Nat) :
    last_named_digit l = some (named_last_spec l) := by
  unfold last_named_digit MIN_NAMED_DIGIT_LEN named_last_spec
  by_cases h1 : l.length < 3
  · simp only [if_pos h1]
    have hsp : named_last_aux l l.length = last_digit l := by
      have := named_last_aux_short (l := l) l.length (by omega) (le_refl _)
      rwa [List.take_length] at this
    cases hf : last_digit l <;> simp [hsp, hf]
  · by_cases h2 : l.length = 3
    · have hsp := scan_last_spec (l := l) 1 (by omega)
      have hr : (List.range' 3 1).reverse = [3] := rfl
      rw [hr] at hsp
      have h12 : (1 : Nat) + 2 = 3 := rfl
      rw [h12] at hsp
      have htk : l.take 3 = l := by rw [← h2, List.take_length]
      rw [htk] at hsp
      have hs : slice_to_last_u64 l = some (pos_last l 3) := by
        have := stl_take (l := l) (i := 3) (by omega) (by omega)
        rwa [htk] at this
      have hscan : last_named_scan l [3] =
          match pos_last l 3 with
          | some d => some (some d)
          | none => some none := by
        unfold last_named_scan
        rw [window_last (by omega) (by omega)]
        cases pos_last l 3 <;> rfl
      rw [hscan] at hsp
      simp only [if_neg h1, if_pos h2]
      rw [hs, h2]
      cases hp : pos_last l 3 with
      | some d =>
        rw [hp] at hsp
        simp only [merge1] at hsp
        rw [hsp]
      | none =>
        rw [hp] at hsp
        simp only [merge1] at hsp
        rw [hsp]
    · have hlen : l.length - 3 + 1 = l.length - 2 := by omega
      simp only [if_neg h1, if_neg h2]
      rw [hlen]
      have hsp := scan_last_spec (l := l) (l.length - 2) (by omega)
      have hk2 : l.length - 2 + 2 = l.length := by omega
      rw [hk2, List.take_length] at hsp
      have htot := scan_last_total (l := l) ((List.range' 3 (l.length - 2)).reverse)
        (fun i hi => by rw [List.mem_reverse, List.mem_range'_1] at hi; omega)
      cases hscan : last_named_scan l (List.range' 3 (l.length - 2)).reverse with
      | none => exact absurd hscan htot
      | some r =>
        rw [hscan] at hsp
        cases r with
        | some d =>
          simp only [merge1] at hsp
          rw [hsp]
        | none =>
          simp only [merge1] at hsp
          rw [hsp]

/-! ### Consequences of the characterization -/

theorem inf_cons_iff {w l : List Nat} {c : Nat} :
    w <:+: c :: l ↔ w <+: c :: l ∨ w <:+: l := by
  constructor
  · rintro ⟨s, t, hst⟩
    cases s with
    | nil => exact Or.inl ⟨t, by simpa using hst⟩
    | cons a s' =>
      right
      rw [List.cons_append, List.cons_append] at hst
      exact ⟨s', t, (List.cons.injEq ..).mp hst |>.2⟩
  · rintro (h | h)
    · exact inf_of_pre h
    · exact inf_cons_of h

theorem named_last_aux_succ {l : List Nat} {n : Nat} :
    named_last_aux l (n + 1) =
      match byte_to_u64 (l.getD n 0) with
      | some d => some d
      | none =>
        match find_ending (l.take (n + 1)) ALL_DIGITS with
        | some v => some v
        | none => named_last_aux l n := rfl

theorem first_digit_isSome_iff {l : List Nat} :
    (first_digit l).isSome = true ↔ ∃ c ∈ l, (byte_to_u64 c).isSome = true := by
  induction l with
  | nil => simp [first_digit]
  | cons c rest ih =>
    rw [first_digit_cons]
    cases hb : byte_to_u64 c with
    | some d =>
      simp only [Option.isSome_some, true_iff]
      exact ⟨c, by simp, by simp [hb]⟩
    | none =>
      rw [ih]
      constructor
      · rintro ⟨x, hx, hxs⟩
        exact ⟨x, by simp [hx], hxs⟩
      · rintro ⟨x, hx, hxs⟩
        rcases List.mem_cons.mp hx with rfl | hx'
        · rw [hb] at hxs
          cases hxs
        · exact ⟨x, hx', hxs⟩

theorem last_digit_isSome_iff {l : List Nat} :
    (last_digit l).isSome = true ↔ ∃ c ∈ l, (byte_to_u64 c).isSome = true := by
  unfold last_digit
  rw [first_digit_isSome_iff]
  constructor
  · rintro ⟨c, hc, hcs⟩
    exact ⟨c, List.mem_reverse.mp hc, hcs⟩
  · rintro ⟨c, hc, hcs⟩
    exact ⟨c, List.mem_reverse.mpr hc, hcs⟩

theorem named_first_spec_isSome_iff {l : List Nat} :
    (named_first_spec l).isSome = true ↔
      (∃ c ∈ l, (byte_to_u64 c).isSome = true) ∨ ∃ p ∈ ALL_DIGITS, p.1 <:+: l := by
  induction l with
  | nil =>
    constructor
    · intro h
      simp [named_first_spec] at h
    · rintro (⟨c, hc, _⟩ | ⟨p, hp, hinf⟩)
      · simp at hc
      · obtain ⟨s, t, hst⟩ := hinf
        have h2 := all_digits_len_ge p hp
        obtain ⟨-, hp1, -⟩ : s = [] ∧ p.1 = [] ∧ t = [] := by
          simpa using congrArg List.length hst
        rw [hp1] at h2
        simp at h2
  | cons c rest ih =>
    rw [named_first_spec_cons]
    cases hb : byte_to_u64 c with
    | some d =>
      simp only [Option.isSome_some, true_iff]
      exact Or.inl ⟨c, by simp, by simp [hb]⟩
    | none =>
      cases hf : find_starting (c :: rest) ALL_DIGITS with
      | some v =>
        simp only [Option.isSome_some, true_iff]
        obtain ⟨p, hp, _, hpre⟩ := find_starting_mem hf
        exact Or.inr ⟨p, hp, inf_of_pre hpre⟩
      | none =>
        show (named_first_spec rest).isSome = true ↔ _
        rw [ih]
        constructor
        · rintro (⟨x, hx, hxs⟩ | ⟨p, hp, hinf⟩)
          · exact Or.inl ⟨x, by simp [hx], hxs⟩
          · exact Or.inr ⟨p, hp, inf_cons_of hinf⟩
        · rintro (⟨x, hx, hxs⟩ | ⟨p, hp, hinf⟩)
          · rcases List.mem_cons.mp hx with rfl | hx'
            · rw [hb] at hxs
              cases hxs
            · exact Or.inl ⟨x, hx', hxs⟩
          · rcases inf_cons_iff.mp hinf with hpre | hinf'
            · exact absurd hpre (find_starting_eq_none_iff.mp hf p hp)
            · exact Or.inr ⟨p, hp, hinf'⟩

theorem named_last_aux_isSome_iff {l : List Nat} :
    ∀ n, n ≤ l.length →
      ((named_last_aux l n).isSome = true ↔
        (∃ c ∈ l.take n, (byte_to_u64 c).isSome = true) ∨
          ∃ p ∈ ALL_DIGITS, p.1 <:+: l.take n)
  | 0, _ => by
    constructor
    · intro h
      simp [named_last_aux] at h
    · rintro (⟨c, hc, _⟩ | ⟨p, hp, hinf⟩)
      · simp at hc
      · obtain ⟨s, t, hst⟩ := hinf
        have h2 := all_digits_len_ge p hp
        obtain ⟨-, hp1, -⟩ : s = [] ∧ p.1 = [] ∧ t = [] := by
          simpa using congrArg List.length hst
        rw [hp1] at h2
        simp at h2
  | n + 1, hl => by
    have hn : n < l.length := by omega
    have htake : l.take (n + 1) = l.take n ++ [l.getD n 0] := by
      rw [List.take_succ, List.getElem?_eq_getElem hn, List.getD_eq_getElem?_getD,
        List.getElem?_eq_getElem hn]
      rfl
    rw [named_last_aux_succ]
    cases hb : byte_to_u64 (l.getD n 0) with
    | some d =>
      simp only [Option.isSome_some, true_iff]
      refine Or.inl ⟨l.getD n 0, ?_, by rw [hb]; rfl⟩
      rw [htake]
      simp
    | none =>
      cases hf : find_ending (l.take (n + 1)) ALL_DIGITS with
      | some v =>
        simp only [Option.isSome_some, true_iff]
        obtain ⟨p, hp, _, hsuf⟩ := find_ending_mem hf
        exact Or.inr ⟨p, hp, inf_of_suf hsuf⟩
      | none =>
        show (named_last_aux l n).isSome = true ↔ _
        rw [named_last_aux_isSome_iff n (by omega)]
        constructor
        · rintro (⟨x, hx, hxs⟩ | ⟨p, hp, hinf⟩)
          · exact Or.inl ⟨x, by rw [htake]; simp [hx], hxs⟩
          · refine Or.inr ⟨p, hp, ?_⟩
            rw [htake]
            exact inf_of_inf_concat hinf
        · rintro (⟨x, hx, hxs⟩ | ⟨p, hp, hinf⟩)
          · rw [htake] at hx
            rcases List.mem_append.mp hx with hx' | hx'
            · exact Or.inl ⟨x, hx', hxs⟩
            · have : x = l.getD n 0 := by simpa using hx'
              rw [this, hb] at hxs
              cases hxs
          · rw [htake] at hinf
            rcases inf_concat_iff.mp hinf with hsuf | hinf'
            · rw [← htake] at hsuf
              exact absurd hsuf (find_ending_eq_none_iff.mp hf p hp)
            · exact Or.inr ⟨p, hp, hinf'⟩

theorem named_first_spec_le_nine {l : List Nat} {d : Nat}
    (h : named_first_spec l = some d) : d ≤ 9 := by
  induction l with
  | nil => cases h
  | cons c rest ih =>
    rw [named_first_spec_cons] at h
    cases hb : byte_to_u64 c with
    | some e =>
      rw [hb] at h
      cases h
      exact byte_to_u64_le_nine hb
    | none =>
      rw [hb] at h
      cases hf : find_starting (c :: rest) ALL_DIGITS with
      | some v =>
        rw [hf] at h
        cases h
        obtain ⟨p, hp, hv, _⟩ := find_starting_mem hf
        rw [← hv]
        exact all_digits_val_le p hp
      | none =>
        rw [hf] at h
        exact ih h

theorem named_last_aux_le_nine {l : List Nat} {d : Nat} :
    ∀ n, named_last_aux l n = some d → d ≤ 9
  | 0, h => by cases h
  | n + 1, h => by
    rw [named_last_aux_succ] at h
    cases hb : byte_to_u64 (l.getD n 0) with
    | some e =>
      rw [hb] at h
      cases h
      exact byte_to_u64_le_nine hb
    | none =>
      rw [hb] at h
      cases hf : find_ending (l.take (n + 1)) ALL_DIGITS with
      | some v =>
        rw [hf] at h
        cases h
        obtain ⟨p, hp, hv, _⟩ := find_ending_mem hf
        rw [← hv]
        exact all_digits_val_le p hp
      | none =>
        rw [hf] at h
        exact named_last_aux_le_nine n h

theorem named_first_spec_nowords {l : List Nat}
    (h : ∀ p ∈ ALL_DIGITS, ¬ p.1 <:+: l) : named_first_spec l = first_digit l := by
  induction l with
  | nil => rfl
  | cons c rest ih =>
    have hfs : find_starting (c :: rest) ALL_DIGITS = none := by
      rw [find_starting_eq_none_iff]
      intro p hp hpre
      exact h p hp (inf_of_pre hpre)
    rw [named_first_spec_cons, first_digit_cons, hfs]
    cases hb : byte_to_u64 c with
    | some d => rfl
    | none => exact ih (fun p hp hin => h p hp (inf_cons_of hin))

theorem named_last_aux_nowords {l : List Nat}
    (h : ∀ p ∈ ALL_DIGITS, ¬ p.1 <:+: l) :
    ∀ n, n ≤ l.length → named_last_aux l n = last_digit (l.take n)
  | 0, _ => by simp [named_last_aux, last_digit, first_digit]
  | n + 1, hl => by
    have hn : n < l.length := by omega
    have htake : l.take (n + 1) = l.take n ++ [l.getD n 0] := by
      rw [List.take_succ, List.getElem?_eq_getElem hn, List.getD_eq_getElem?_getD,
        List.getElem?_eq_getElem hn]
      rfl
    have hfe : find_ending (l.take (n + 1)) ALL_DIGITS = none := by
      rw [find_ending_eq_none_iff]
      intro p hp hsuf
      exact h p hp (inf_of_suf_take hsuf)
    rw [named_last_aux_succ, hfe]
    cases hb : byte_to_u64 (l.getD n 0) with
    | some d => rw [htake, last_digit_concat_digit hb]
    | none =>
      rw [htake, last_digit_concat_nondigit hb]
      exact named_last_aux_nowords h n (by omega)

theorem line_value2_total (l : List Nat) :
    line_value2 l = some ((named_first_spec l).getD 0 * 10 + (named_last_spec l).getD 0) := by
  unfold line_value2
  rw [first_named_digit_eq_spec, last_named_digit_eq_spec]

theorem mapM_line_value2 :
    ∀ ls : List (List Nat),
      ls.mapM line_value2 = some (ls.map (fun x => (line_value2 x).getD 0))
  | [] => rfl
  | x :: rest => by
    rw [List.mapM_cons, line_value2_total x, mapM_line_value2 rest]
    simp [line_value2_total x]

/-! ### The claims -/

/-- Claim C1: under the named rule, overlapping spellings are resolved by
scan position: the seven golden lines extract 29, 83, 13, 24, 42, 14, 76,
their sum is 281, and on the line "twone" the first named digit is 2 and
the last is 1. -/
theorem claim1_named_rule_golden :
    line_value2 (str_bytes "two1nine") = some 29 ∧
    line_value2 (str_bytes "eightwothree") = some 83 ∧
    line_value2 (str_bytes "abcone2threexyz") = some 13 ∧
    line_value2 (str_bytes "xtwone3four") = some 24 ∧
    line_value2 (str_bytes "4nineeightseven2") = some 42 ∧
    line_value2 (str_bytes "zoneight234") = some 14 ∧
    line_value2 (str_bytes "7pqrstsixteen") = some 76 ∧
    day1_step2 (ε := Nat) (Except.ok (str_bytes
      "two1nine\neightwothree\nabcone2threexyz\nxtwone3four\n4nineeightseven2\nzoneight234\n7pqrstsixteen")) =
      some (Except.ok 281) ∧
    first_named_digit (str_bytes "twone") = some (some 2) ∧
    last_named_digit (str_bytes "twone") = some (some 1) :=
  ⟨rfl, rfl, rfl, rfl, rfl, rfl, rfl, rfl, rfl, rfl⟩

/-- Claim C2 as stated is false: the literal-rule value of the golden line
"a1b2c3d4e5f" is 15 (first digit 1, last digit 5), not 55. -/
theorem claim2_literal_golden_counterexample :
    line_value1 (str_bytes "a1b2c3d4e5f") = 15 ∧
    line_value1 (str_bytes "a1b2c3d4e5f") ≠ 55 :=
  ⟨rfl, by decide⟩

/-- Claim C2, amended: under the literal rule the four golden lines
extract 12, 38, 15, 77, and the document sum over them is 142. -/
theorem claim2_literal_golden_amended :
    line_value1 (str_bytes "1abc2") = 12 ∧
    line_value1 (str_bytes "pqr3stu8vwx") = 38 ∧
    line_value1 (str_bytes "a1b2c3d4e5f") = 15 ∧
    line_value1 (str_bytes "treb7uchet") = 77 ∧
    day1_step1 (ε := Nat) (Except.ok (str_bytes
      "1abc2\npqr3stu8vwx\na1b2c3d4e5f\ntreb7uchet")) = Except.ok 142 :=
  ⟨rfl, rfl, rfl, rfl, rfl⟩

/-- Claim C3: at every window position the literal ASCII digit is tested
before any word spelling — a window whose leading (resp. trailing) byte
is an ASCII digit `d` yields `Some d` regardless of any word match. -/
theorem claim3_literal_digit_precedence :
    (∀ (c : Nat) (rest : List Nat) (d : Nat), byte_to_u64 c = some d →
      slice_to_first_u64 (c :: rest) = some (some d)) ∧
    (∀ (slice : List Nat) (c d : Nat), slice.getLast? = some c → byte_to_u64 c = some d →
      slice_to_last_u64 slice = some (some d)) := by
  constructor
  · intro c rest d h
    simp [slice_to_first_u64, h]
  · intro slice c d hl hb
    cases slice with
    | nil => cases hl
    | cons c0 rest =>
      rw [stl_nonempty, List.getLastD_eq_getLast?, hl]
      simp [hb]

/-- Witness for C3: "1two" starts with the digit 1 and with the word
"two"; the digit wins.  "two2" ends with the digit 2 after a word. -/
theorem claim3_literal_digit_precedence_witness :
    slice_to_first_u64 (49 :: str_bytes "two") = some (some 1) ∧
    slice_to_last_u64 (str_bytes "two2") = some (some 2) :=
  ⟨claim3_literal_digit_precedence.1 49 (str_bytes "two") 1 rfl,
   claim3_literal_digit_precedence.2 (str_bytes "two2") 50 2 (by decide) rfl⟩

/-- Claim C4: every line contributes `10 * first + last ∈ [0, 99]`, with 0
exactly when no digit is found, and the totals are the sums of these
per-line contributions. -/
theorem claim4_contribution_range :
    (∀ line : List Nat,
      line_value1 line = 10 * (first_digit line).getD 0 + (last_digit line).getD 0 ∧
      line_value1 line ≤ 99 ∧
      (first_digit line = none → last_digit line = none → line_value1 line = 0)) ∧
    (∀ (line : List Nat) (v : Nat), line_value2 line = some v →
      v = 10 * ((first_named_digit line).getD none).getD 0 +
            ((last_named_digit line).getD none).getD 0 ∧
      v ≤ 99 ∧
      (first_named_digit line = some none → last_named_digit line = some none → v = 0)) ∧
    (∀ (ε : Type) (input : List Nat),
      day1_step1 (ε := ε) (Except.ok input) =
        Except.ok (((rust_lines input).map line_value1).sum) ∧
      day1_step2 (ε := ε) (Except.ok input) =
        some (Except.ok (((rust_lines input).map (fun l => (line_value2 l).getD 0)).sum))) := by
  refine ⟨fun line => ⟨by unfold line_value1; omega, ?_, ?_⟩, ?_, ?_⟩
  · have h1 : (first_digit line).getD 0 ≤ 9 := by
      cases hf : first_digit line with
      | none => simp
      | some d => simpa using first_digit_le_nine hf
    have h2 : (last_digit line).getD 0 ≤ 9 := by
      cases hf : last_digit line with
      | none => simp
      | some d => simpa using last_digit_le_nine hf
    unfold line_value1
    omega
  · intro hf hl
    unfold line_value1
    rw [hf, hl]
    rfl
  · intro line v hv
    have hfc := first_named_digit_eq_spec line
    have hlc := last_named_digit_eq_spec line
    rw [line_value2_total] at hv
    injection hv with hv'
    have h1 : (named_first_spec line).getD 0 ≤ 9 := by
      cases hs : named_first_spec line with
      | none => simp
      | some d => simpa using named_first_spec_le_nine hs
    have h2 : (named_last_spec line).getD 0 ≤ 9 := by
      cases hs : named_last_spec line with
      | none => simp
      | some d =>
        unfold named_last_spec at hs
        simpa using named_last_aux_le_nine line.length hs
    refine ⟨?_, by omega, ?_⟩
    · rw [hfc, hlc, ← hv']
      simp
      omega
    · intro hfn hln
      rw [hfc] at hfn
      rw [hlc] at hln
      injection hfn with hfn'
      injection hln with hln'
      rw [← hv', hfn', hln']
      rfl
  · intro ε input
    refine ⟨rfl, ?_⟩
    show (match (rust_lines input).mapM line_value2 with
      | some values => some (Except.ok values.sum)
      | none => none) = _
    rw [mapM_line_value2]

/-- Witness for C4: the digitless, wordless line "xyz" contributes 0
under both rules. -/
theorem claim4_contribution_range_witness :
    line_value1 (str_bytes "xyz") = 0 ∧ (0 : Nat) = 0 :=
  ⟨(claim4_contribution_range.1 (str_bytes "xyz")).2.2 (by decide) (by decide),
   (claim4_contribution_range.2.1 (str_bytes "xyz") 0 (by decide)).2.2 (by decide) (by decide)⟩

/-- Claim C5: a line shorter than the minimum word length (3) falls back
to literal scanning only, does not panic, and with no literal digit both
named scanners return None and the line contributes 0. -/
theorem claim5_short_line_literal_fallback :
    ∀ line : List Nat, line.length < MIN_NAMED_DIGIT_LEN →
      first_named_digit line = some (first_digit line) ∧
      last_named_digit line = some (last_digit line) ∧
      (first_digit line = none →
        first_named_digit line = some none ∧ last_named_digit line = some none ∧
          line_value2 line = some 0) := by
  intro line h
  have h3 : line.length < 3 := h
  have hf : first_named_digit line = some (first_digit line) := by
    rw [first_named_digit_eq_spec, named_first_spec_short h3]
  have hl : last_named_digit line = some (last_digit line) := by
    rw [last_named_digit_eq_spec]
    unfold named_last_spec
    rw [named_last_aux_short line.length (by omega) (le_refl _), List.take_length]
  refine ⟨hf, hl, fun hnone => ?_⟩
  have hlnone : last_digit line = none := by
    rw [last_digit_eq_none_iff]
    exact first_digit_eq_none_iff.mp hnone
  refine ⟨by rw [hf, hnone], by rw [hl, hlnone], ?_⟩
  unfold line_value2
  rw [hf, hl, hnone, hlnone]
  rfl

/-- Witness for C5: the length-2 digitless line "ab". -/
theorem claim5_short_line_literal_fallback_witness :
    first_named_digit (str_bytes "ab") = some none ∧
    last_named_digit (str_bytes "ab") = some none ∧
    line_value2 (str_bytes "ab") = some 0 :=
  (claim5_short_line_literal_fallback (str_bytes "ab") (by decide)).2.2 (by decide)

/-- Claim C6: the summations fail exactly when the read fails, propagate
the read error unchanged, and succeed with a total on every readable
input — no line content produces an error. -/
theorem claim6_error_propagation :
    ∀ ε : Type,
      (∀ e : ε, day1_step1 (Except.error e) = Except.error e) ∧
      (∀ input : List Nat, day1_step1 (ε := ε) (Except.ok input) =
        Except.ok (((rust_lines input).map line_value1).sum)) ∧
      (∀ e : ε, day1_step2 (Except.error e) = some (Except.error e)) ∧
      (∀ input : List Nat, ∃ total : Nat,
        day1_step2 (ε := ε) (Except.ok input) = some (Except.ok total)) := by
  intro ε
  refine ⟨fun e => rfl, fun input => rfl, fun e => rfl, fun input => ?_⟩
  refine ⟨((rust_lines input).map (fun l => (line_value2 l).getD 0)).sum, ?_⟩
  show (match (rust_lines input).mapM line_value2 with
    | some values => some (Except.ok values.sum)
    | none => none) = _
  rw [mapM_line_value2]

/-- Claim C7: for a fixed file content the totals are pure functions of
that content — two runs of either summation agree. -/
theorem claim7_deterministic :
    ∀ (ε : Type) (content : List Nat),
      (∀ r₁ r₂ : Except ε Nat,
        day1_step1 (Except.ok content) = r₁ → day1_step1 (Except.ok content) = r₂ →
          r₁ = r₂) ∧
      (∀ s₁ s₂ : Option (Except ε Nat),
        day1_step2 (Except.ok content) = s₁ → day1_step2 (Except.ok content) = s₂ →
          s₁ = s₂) := by
  intro ε content
  exact ⟨fun r₁ r₂ h1 h2 => by rw [← h1, ← h2],
    fun s₁ s₂ h1 h2 => by rw [← h1, ← h2]⟩

/-- Witness for C7, at the empty content. -/
theorem claim7_deterministic_witness :
    (Except.ok 0 : Except Nat Nat) = Except.ok 0 :=
  (claim7_deterministic Nat []).1 (Except.ok 0) (Except.ok 0) rfl rfl

/-- Claim C8: on every line the forward and backward scans agree on digit
presence, under both the literal and the named rule. -/
theorem claim8_ends_agree :
    ∀ line : List Nat,
      ((first_digit line).isSome = true ↔ (last_digit line).isSome = true) ∧
      ((∃ d, first_named_digit line = some (some d)) ↔
        (∃ d, last_named_digit line = some (some d))) := by
  intro line
  have hf := first_named_digit_eq_spec line
  have hl := last_named_digit_eq_spec line
  have hlast_iff : (named_last_spec line).isSome = true ↔
      (∃ c ∈ line, (byte_to_u64 c).isSome = true) ∨
        ∃ p ∈ ALL_DIGITS, p.1 <:+: line := by
    unfold named_last_spec
    have h := named_last_aux_isSome_iff (l := line) line.length (le_refl _)
    rwa [List.take_length] at h
  constructor
  · rw [first_digit_isSome_iff, last_digit_isSome_iff]
  · constructor
    · rintro ⟨d, hd⟩
      rw [hf] at hd
      injection hd with hd'
      have h1 : (named_first_spec line).isSome = true := by
        rw [hd']
        rfl
      have h2 := hlast_iff.mpr (named_first_spec_isSome_iff.mp h1)
      obtain ⟨d', hd''⟩ := Option.isSome_iff_exists.mp h2
      exact ⟨d', by rw [hl, hd'']⟩
    · rintro ⟨d, hd⟩
      rw [hl] at hd
      injection hd with hd'
      have h1 : (named_last_spec line).isSome = true := by
        rw [hd']
        rfl
      have h2 := named_first_spec_isSome_iff.mpr (hlast_iff.mp h1)
      obtain ⟨d', hd''⟩ := Option.isSome_iff_exists.mp h2
      exact ⟨d', by rw [hf, hd'']⟩

/-- Claim C9: on a line containing no occurrence of any of the nine word
spellings, the named scanners return exactly what the literal scanners
return (and do not panic). -/
theorem claim9_conservative_extension :
    ∀ line : List Nat, (∀ p ∈ ALL_DIGITS, ¬ p.1 <:+: line) →
      first_named_digit line = some (first_digit line) ∧
      last_named_digit line = some (last_digit line) := by
  intro line h
  constructor
  · rw [first_named_digit_eq_spec, named_first_spec_nowords h]
  · rw [last_named_digit_eq_spec]
    unfold named_last_spec
    rw [named_last_aux_nowords h line.length (le_refl _), List.take_length]

/-- Witness for C9: "1abc2" contains no word spelling. -/
theorem claim9_conservative_extension_witness :
    first_named_digit (str_bytes "1abc2") = some (first_digit (str_bytes "1abc2")) ∧
    last_named_digit (str_bytes "1abc2") = some (last_digit (str_bytes "1abc2")) :=
  claim9_conservative_extension (str_bytes "1abc2") (by decide)

/-- Claim C10: the named scanners are total on arbitrary byte lines —
they always return (outer `some`), so the unguarded indexing inside the
window tests never panics. -/
theorem claim10_no_panic :
    ∀ line : List Nat,
      (∃ r, first_named_digit line = some r) ∧ ∃ r, last_named_digit line = some r :=
  fun line =>
    ⟨⟨named_first_spec line, first_named_digit_eq_spec line⟩,
     ⟨named_last_spec line, last_named_digit_eq_spec line⟩⟩

end Day1
